import Mathlib

/-!
Verification of the GEDCOM 5.5 parser of the Rootsrevealed repository
(`src/python_gedcom_2/parser.py`) against its natural-language specification.

The parser is shallowly embedded: lines are lists of characters, the concrete
regular expressions of `Parser.parse_line` are rendered as deterministic
matching functions (the regexes are backtracking-free on their alternatives,
as argued in comments at each function), the mutable element tree threaded
through `parse_line` via the `last_element` cursor is rendered as a spine —
the list of frames from the last element up to the virtual root, each frame
carrying the element fields and the children completed so far — and Python
exceptions become `Except` errors.

The element classes (`Element`, `RootElement`, `IndividualElement`,
`FamilyElement`), the `ElementCreator` and the tag-constant module
`python_gedcom_2.tags` are code of the repository that is not under `src/`;
they are modelled from the spec where so marked.
-/

namespace Gedcom

abbrev Chars := List Char

/-- End of line defined by LF or CR, mirroring the character class `[\r\n]`
of `end_of_line_regex` in `parser.py`. -/
def isTerminator (c : Char) : Bool := c = '\r' || c = '\n'

/-- The tag character class `[A-Za-z0-9_]` of `tag_regex` in `parser.py`. -/
def isTagChar (c : Char) : Bool := c.isAlpha || c.isDigit || c = '_'

/-- Python `str.strip()` on a character list: drop leading and trailing
whitespace (space, tab, CR, LF — the whitespace characters relevant to a
GEDCOM line). -/
def pyStripChars (s : Chars) : Chars :=
  ((s.dropWhile Char.isWhitespace).reverse.dropWhile Char.isWhitespace).reverse

/-- Python `str.strip()` producing a `String`. -/
def pyStrip (s : Chars) : String := (pyStripChars s).asString

/-- Python `str.rstrip(' ')`: drop trailing spaces, used on the pointer group
(`line_parts[1].rstrip(' ')` in `parser.py`). -/
def rstripSpace (s : Chars) : Chars := (s.reverse.dropWhile (· = ' ')).reverse

/-- Numeric value of a digit run, mirroring Python `int(line_parts[0])`
(the grammar guarantees the run is a decimal numeral without sign). -/
def digitsToNat (ds : Chars) : Nat :=
  ds.foldl (fun n c => 10 * n + (c.toNat - '0'.toNat)) 0

/-- `level_regex = '^(0|[1-9]+[0-9]*) '` of `parser.py`.  The alternation is
deterministic: the branch `0` demands the next character be the space, and the
branch `[1-9]+[0-9]*` (a maximal digit run whose first digit is nonzero — any
shorter backtracked match would leave a digit, not the required space, as the
next character) is tried exactly when the first character is in `1`-`9`.
Returns the level and the remainder after the space. -/
def matchLevel : Chars → Option (Nat × Chars)
  | '0' :: ' ' :: rest => some (0, rest)
  | c :: rest =>
    if '1' ≤ c ∧ c ≤ '9' then
      match rest.span Char.isDigit with
      | (ds, ' ' :: rest2) => some (digitsToNat (c :: ds), rest2)
      | _ => none
    else none
  | [] => none

/-- `pointer_regex = '(@[^@]+@ |)'` of `parser.py`.  `[^@]+` cannot cross an
`@`, so the only candidate match runs from the opening `@` to the next `@`,
which must be followed by a space; otherwise the empty alternative is taken
(and the tag match then fails on the `@`, exactly as the regex would).
Returns the matched group (trailing space included, as in the Python group)
and the remainder. -/
def matchPointer : Chars → (Chars × Chars)
  | '@' :: rest =>
    match rest.span (fun c => c ≠ '@') with
    | (m :: mid, '@' :: ' ' :: rest2) => ('@' :: (m :: mid) ++ ['@', ' '], rest2)
    | _ => ([], '@' :: rest)
  | s => ([], s)

/-- `tag_regex = '([A-Za-z0-9_]+)'` of `parser.py`: a maximal nonempty run of
tag characters (backtracking to a shorter run can never help: the following
value alternative starts with a space and the terminator class excludes tag
characters). -/
def matchTag (s : Chars) : Option (Chars × Chars) :=
  match s.span isTagChar with
  | ([], _) => none
  | (tg, rest) => some (tg, rest)

/-- `value_regex = '( [^\n\r]*|)'` of `parser.py`: if a space follows the tag
the group greedily takes it and everything up to the first terminator,
otherwise the group is empty.  (When the space branch applies, the empty
alternative could never rescue a failing match: the terminator class does not
contain the space.) -/
def matchValue : Chars → (Chars × Chars)
  | ' ' :: rest =>
    match rest.span (fun c => !(isTerminator c)) with
    | (v, rest2) => (' ' :: v, rest2)
  | s => ([], s)

/-- `end_of_line_regex = '([\r\n]{1,2})'` of `parser.py`: one or two
terminator characters, greedily. `regex.match` does not anchor the end of the
string, so any residue after the terminator is ignored. -/
def matchCrlf : Chars → Option (Chars × Chars)
  | c1 :: c2 :: rest =>
    if isTerminator c1 then
      if isTerminator c2 then some ([c1, c2], rest) else some ([c1], c2 :: rest)
    else none
  | [c1] => if isTerminator c1 then some ([c1], []) else none
  | [] => none

/-- The five captured groups of `gedcom_line_regex`. -/
structure LineFields where
  level : Nat
  pointerGroup : Chars
  tag : Chars
  valueGroup : Chars
  crlf : Chars
deriving Repr, DecidableEq

/-- `regex.match(gedcom_line_regex, line)` of `parser.py`: the full line
grammar `level pointer? tag value? terminator`. -/
def matchGedcomLine (line : Chars) : Option LineFields :=
  match matchLevel line with
  | none => none
  | some (lvl, r1) =>
    match matchPointer r1 with
    | (ptr, r2) =>
      match matchTag r2 with
      | none => none
      | some (tg, r3) =>
        match matchValue r3 with
        | (vg, r4) =>
          match matchCrlf r4 with
          | none => none
          | some (cl, _) => some ⟨lvl, ptr, tg, vg, cl⟩

/-- `regex.match(last_line_regex, line)` of `parser.py` (lenient quirk 1):
the same grammar without the required terminator; the `crlf` group is absent
(the code substitutes `'\n'`). -/
def matchLastLine (line : Chars) : Option LineFields :=
  match matchLevel line with
  | none => none
  | some (lvl, r1) =>
    match matchPointer r1 with
    | (ptr, r2) =>
      match matchTag r2 with
      | none => none
      | some (tg, r3) =>
        match matchValue r3 with
        | (vg, _) => some ⟨lvl, ptr, tg, vg, []⟩

/-- `regex.match(cont_line_regex, line)` of `parser.py` (lenient quirk 2):
`'([^\n\r]*|)([\r\n]{1,2})'` — free text up to a required terminator.
Returns the text group and the terminator group. -/
def matchContLine (line : Chars) : Option (Chars × Chars) :=
  match line.span (fun c => !(isTerminator c)) with
  | (txt, rest) =>
    match matchCrlf rest with
    | none => none
    | some (cl, _) => some (txt, cl)

/-! ## Tags and element model

`python_gedcom_2.tags`, `Element`, `RootElement`, `ElementCreator`,
`IndividualElement` and `FamilyElement` are code of the repository that is
not under `src/`; they are modelled from the spec below. -/

/-- Modelled from the spec: `python_gedcom_2.tags.GEDCOM_TAG_CONTINUED`
(the "CONT" mechanism for splitting a long value across lines, appending
with a line break — spec glossary). -/
def GEDCOM_TAG_CONTINUED : String := "CONT"

/-- Modelled from the spec: `python_gedcom_2.tags.GEDCOM_TAG_CONCATENATION`
("CONC": appends without a line break — spec glossary). -/
def GEDCOM_TAG_CONCAT : String := "CONC"

/-- Modelled from the spec: `python_gedcom_2.tags.GEDCOM_TAG_INDIVIDUAL`
(the tag classifying individual records). -/
def GEDCOM_TAG_INDIVIDUAL : String := "INDI"

/-- Modelled from the spec: `python_gedcom_2.tags.GEDCOM_TAG_FAMILY`
(the tag classifying family records). -/
def GEDCOM_TAG_FAMILY : String := "FAM"

/-- Modelled from the spec: `python_gedcom_2.tags.GEDCOM_TAG_FAMILY_SPOUSE`
(the "spouse in family" link declared on an individual). -/
def GEDCOM_TAG_FAMILY_SPOUSE : String := "FAMS"

/-- Modelled from the spec: `python_gedcom_2.tags.GEDCOM_TAG_FAMILY_CHILD`
(the "child in family" link declared on an individual). -/
def GEDCOM_TAG_FAMILY_CHILD : String := "FAMC"

/-- Modelled from the spec: `python_gedcom_2.tags.GEDCOM_TAG_HUSBAND`. -/
def GEDCOM_TAG_HUSBAND : String := "HUSB"

/-- Modelled from the spec: `python_gedcom_2.tags.GEDCOM_TAG_WIFE`. -/
def GEDCOM_TAG_WIFE : String := "WIFE"

/-- Modelled from the spec: `python_gedcom_2.tags.GEDCOM_TAG_MARRIAGE`
(the marriage event node inside a family record). -/
def GEDCOM_TAG_MARRIAGE : String := "MARR"

/-- Modelled from the spec: `python_gedcom_2.tags.GEDCOM_TAG_DATE`. -/
def GEDCOM_TAG_DATE : String := "DATE"

/-- Modelled from the spec: `python_gedcom_2.tags.GEDCOM_TAG_PLACE`. -/
def GEDCOM_TAG_PLACE : String := "PLAC"

/-- The line-derived fields of an element: level, optional pointer (Python
`None` is `none`; an absent pointer group parses to `some ""`), tag, value
and terminator. -/
structure ElemData where
  level : Int
  pointer : Option String
  tag : String
  value : String
  crlf : String
deriving Repr, DecidableEq

/-- Modelled from the spec: an `Element` is a node of the document tree
holding level/pointer/tag/value and an ordered list of children (insertion
order = source order).  The Python parent back-reference is traversal-only
and is represented by the tree shape itself. -/
inductive Element where
  | mk (data : ElemData) (children : List Element)

def Element.data : Element → ElemData
  | .mk d _ => d

/-- Modelled from the spec: `Element.get_child_elements()`. -/
def Element.get_child_elements : Element → List Element
  | .mk _ cs => cs

/-- Modelled from the spec: `Element.get_level()`. -/
def Element.get_level (e : Element) : Int := e.data.level

/-- Modelled from the spec: `Element.get_tag()`. -/
def Element.get_tag (e : Element) : String := e.data.tag

/-- Modelled from the spec: `Element.get_pointer()`. -/
def Element.get_pointer (e : Element) : Option String := e.data.pointer

/-- Modelled from the spec: `Element.get_value()`. -/
def Element.get_value (e : Element) : String := e.data.value

/-- Modelled from the spec: the virtual `RootElement` has logical level -1
(so top-level records are level 0), no pointer and no value; its tag is a
sentinel distinct from the continuation and concatenation tags. -/
def rootData : ElemData := ⟨-1, none, "ROOT", "", ""⟩

/-! ## Tree builder

Python builds the tree by mutation: `parse_line` walks up the parent links
from `last_element` and appends the new element to the found parent.  Only
the rightmost path of the tree (from the last element to the root) can still
receive children, so the build state is that path — a spine of frames, head
= last element, final frame = root — each frame holding the element fields
and the children completed so far. -/

structure BuildFrame where
  data : ElemData
  children : List Element

/-- Turning a spine frame into the finished element. -/
def completeFrame (f : BuildFrame) : Element := .mk f.data f.children

/-- The fields of `last_element` (the spine is never empty; the root frame
stands in for the unreachable empty case). -/
def headData (spine : List BuildFrame) : ElemData :=
  ((spine.head?).map BuildFrame.data).getD rootData

/-- The walk `while parent_element.get_level() > level - 1: parent_element =
parent_element.get_parent_element()` followed by
`parent_element.add_child_element(element)` of `parser.py`: pop frames whose
level is still too deep (each popped frame becomes a completed child of the
frame below) and push a fresh frame for the new element.  `none` models the
walk running past the root (unreachable for parsed levels, which are ≥ 0;
Python would fault on `None.get_level()`). -/
def attachUp (e : ElemData) (c : Element) : List BuildFrame → Option (List BuildFrame)
  | [] => none
  | p :: rest =>
    if p.data.level > e.level - 1 then
      attachUp e (completeFrame ⟨p.data, p.children ++ [c]⟩) rest
    else some (⟨e, []⟩ :: ⟨p.data, p.children ++ [c]⟩ :: rest)

/-- Entry of the walk: if even `last_element` is shallow enough, the new
element is attached directly under it; otherwise the popping walk
`attachUp` takes over with `last_element` as the first completed frame. -/
def attach (e : ElemData) : List BuildFrame → Option (List BuildFrame)
  | [] => none
  | f :: rest =>
    if f.data.level > e.level - 1 then attachUp e (completeFrame f) rest
    else some (⟨e, []⟩ :: f :: rest)

/-- The errors raised (or faulted into) by `parse_line`:
`formatViolation` and `levelViolation` are both
`GedcomFormatViolationError`s of `parser.py` (the strict-grammar failure
carries the raw line as well; both carry the line number);
`contMatchFailure` models the `AttributeError` Python raises on
`None.groups()` when the continuation regex fails;
`rootWalk` models the walk past the root (unreachable). -/
inductive ParseError where
  | formatViolation (lineNumber : Nat) (line : String)
  | levelViolation (lineNumber : Nat)
  | contMatchFailure (lineNumber : Nat)
  | rootWalk (lineNumber : Nat)
deriving Repr, DecidableEq

/-- The field-extraction phase of `Parser.parse_line` (`parser.py` lines
182-225): primary grammar; on failure, strict mode raises
`GedcomFormatViolationError`, lenient mode tries the terminator-less grammar
(quirk 1) and then the free-text continuation reinterpretation (quirk 2),
which consults the previous element `last`. -/
def parseLineParts (lineNumber : Nat) (line : Chars) (last : ElemData)
    (strict : Bool) : Except ParseError ElemData :=
  match matchGedcomLine line with
  | some f =>
    .ok ⟨(f.level : Int), some (rstripSpace f.pointerGroup).asString,
         f.tag.asString, pyStrip f.valueGroup, f.crlf.asString⟩
  | none =>
    if strict then
      .error (.formatViolation lineNumber line.asString)
    else
      match matchLastLine line with
      | some f =>
        .ok ⟨(f.level : Int), some (rstripSpace f.pointerGroup).asString,
             f.tag.asString, pyStrip f.valueGroup, "\n"⟩
      | none =>
        match matchContLine line with
        | none => .error (.contMatchFailure lineNumber)
        | some (txt, cl) =>
          if last.tag ≠ GEDCOM_TAG_CONTINUED ∧ last.tag ≠ GEDCOM_TAG_CONCAT then
            -- Increment level and change this line to a CONC
            .ok ⟨last.level + 1, none, GEDCOM_TAG_CONCAT, pyStrip txt, cl.asString⟩
          else
            .ok ⟨last.level, none, last.tag, pyStrip txt, cl.asString⟩

/-- `Parser.parse_line`: extract the fields, enforce the level-jump check
(`if level > last_element.get_level() + 1: raise`, performed on every branch
after any quirk recovery), create the element and attach it; the new element
becomes the `last_element` for the next line (the head of the returned
spine). -/
def parse_line (lineNumber : Nat) (line : Chars) (spine : List BuildFrame)
    (strict : Bool) : Except ParseError (List BuildFrame) :=
  match parseLineParts lineNumber line (headData spine) strict with
  | .error e => .error e
  | .ok d =>
    if d.level > (headData spine).level + 1 then
      .error (.levelViolation lineNumber)
    else
      match attach d spine with
      | none => .error (.rootWalk lineNumber)
      | some spine2 => .ok spine2

/-- The fresh build state of `Parser.parse` / `Parser.parse_stream`:
`self.__root_element = RootElement()` with no children yet. -/
def initSpine : List BuildFrame := [⟨rootData, []⟩]

/-- The shared parsing loop of `Parser.parse` and `Parser.parse_stream`:
feed the lines to `parse_line` in order with 1-based line numbers.  On an
error the loop aborts (the Python exception propagates), but the build state
reached so far is kept — the parser's root element is mutated in place, so
the partially built tree stays behind.  Returns the outcome together with
that final state. -/
def parseLinesFrom (strict : Bool) :
    Nat → List BuildFrame → List Chars → Except ParseError Unit × List BuildFrame
  | _, s, [] => (.ok (), s)
  | n, s, l :: ls =>
    match parse_line n l s strict with
    | .error e => (.error e, s)
    | .ok s2 => parseLinesFrom strict (n + 1) s2 ls

/-- Python `string.split("\n")` (pieces do not contain the separator; a
trailing separator yields a final empty piece; the empty string yields one
empty piece). -/
def splitOnNl : Chars → List Chars
  | [] => [[]]
  | c :: rest =>
    if c = '\n' then [] :: splitOnNl rest
    else
      match splitOnNl rest with
      | [] => [[c]]
      | p :: ps => (c :: p) :: ps

/-- `Parser.parse(string, strict)`: reset the root, then feed
`string.strip().split("\n")` — the split removes every line-feed, so the
pieces reach `parse_line` without their terminator — to the parsing loop. -/
def parse (s : Chars) (strict : Bool) : Except ParseError Unit × List BuildFrame :=
  parseLinesFrom strict 1 initSpine (splitOnNl (pyStripChars s))

/-- Folding the finished spine into the root's children: each frame becomes
a completed child of the frame below; the root frame's children are the
logical records exposed by `Parser.get_root_child_elements()`. -/
def collapseGo (f : BuildFrame) : List BuildFrame → List Element
  | [] => f.children
  | p :: rest => collapseGo ⟨p.data, p.children ++ [completeFrame f]⟩ rest

/-- Folding the finished spine into the root's children (entry point):
the empty spine never occurs. -/
def collapseSpine : List BuildFrame → List Element
  | [] => []
  | f :: rest => collapseGo f rest

instance {ε α : Type} [DecidableEq ε] [DecidableEq α] : DecidableEq (Except ε α) := fun a b =>
  match a, b with
  | .ok x, .ok y => if h : x = y then isTrue (by simp [h]) else isFalse (by simp [h])
  | .error x, .error y => if h : x = y then isTrue (by simp [h]) else isFalse (by simp [h])
  | .ok _, .error _ => isFalse (by simp)
  | .error _, .ok _ => isFalse (by simp)

/-! ## Pointer index and relationship query layer

The query methods live on the `Parser` object and read the tree through
`get_root_child_elements()`; here a parsed document is represented by that
list of logical records. -/

/-- The truthiness test Python applies to `element.get_pointer()` in the
dictionary comprehension of `get_element_dictionary` (both `None` and the
empty string are falsy). -/
def truthyPointer (e : Element) : Option String :=
  match e.get_pointer with
  | some p => if p = "" then none else some p
  | none => none

/-- `Parser.get_element_dictionary()`: the pointer → element mapping built
from the root's child elements, keyed by truthy pointers.  A Python dict
comprehension lets a later element with the same pointer overwrite an
earlier one. -/
def elementDict (doc : List Element) : List (String × Element) :=
  doc.filterMap (fun e => (truthyPointer e).map (fun p => (p, e)))

/-- `Parser.get_element_by_pointer(pointer)`: `None` when the pointer is not
a key; the dict keeps the last element declaring the pointer. -/
def get_element_by_pointer (doc : List Element) (p : String) : Option Element :=
  ((elementDict doc).reverse.find? (fun kv => kv.1 = p)).map (fun kv => kv.2)

/-- `get_element_by_pointer` applied to a possibly-`None` pointer (Python
callers pass `individual.get_parent_family_pointer()` and the like, which
may be `None`; `None` is not a dict key). -/
def resolvePointer (doc : List Element) : Option String → Option Element
  | none => none
  | some p => get_element_by_pointer doc p

/-- Modelled from the spec: `isinstance(e, IndividualElement)`.  Individual
is the specialization of `Element` selected by the `ElementCreator` (not
under `src/`) exactly when the element's tag is the individual tag. -/
def isIndividual (e : Element) : Bool := e.get_tag = GEDCOM_TAG_INDIVIDUAL

/-- Modelled from the spec: `isinstance(e, FamilyElement)`, selected by the
family tag. -/
def isFamily (e : Element) : Bool := e.get_tag = GEDCOM_TAG_FAMILY

/-- Modelled from the spec: `IndividualElement.is_child_in_a_family()` — the
individual declares a "child in family" link, i.e. has a direct child
element with the child-of-family tag. -/
def is_child_in_a_family (e : Element) : Bool :=
  e.get_child_elements.any (fun c => c.get_tag = GEDCOM_TAG_FAMILY_CHILD)

/-- Modelled from the spec: `IndividualElement.get_parent_family_pointer()`
— the value of the individual's child-of-family link (the first such link),
`None` when absent. -/
def get_parent_family_pointer (e : Element) : Option String :=
  (e.get_child_elements.find? (fun c => c.get_tag = GEDCOM_TAG_FAMILY_CHILD)).map
    Element.get_value

/-- Modelled from the spec: `FamilyElement.has_husband()` — the family
declares a husband pointer. -/
def has_husband (e : Element) : Bool :=
  e.get_child_elements.any (fun c => c.get_tag = GEDCOM_TAG_HUSBAND)

/-- Modelled from the spec: `FamilyElement.get_husband_pointer()`. -/
def get_husband_pointer (e : Element) : Option String :=
  (e.get_child_elements.find? (fun c => c.get_tag = GEDCOM_TAG_HUSBAND)).map
    Element.get_value

/-- Modelled from the spec: `FamilyElement.has_wife()`. -/
def has_wife (e : Element) : Bool :=
  e.get_child_elements.any (fun c => c.get_tag = GEDCOM_TAG_WIFE)

/-- Modelled from the spec: `FamilyElement.get_wife_pointer()`. -/
def get_wife_pointer (e : Element) : Option String :=
  (e.get_child_elements.find? (fun c => c.get_tag = GEDCOM_TAG_WIFE)).map
    Element.get_value

/-- The exceptions of the query layer: `NotAnActualIndividualError`
(raised on a non-Individual argument — in particular on Python `None`),
`AttributeError` (method call on `None`), and `RecursionError` (Python's
recursion limit, modelled by running out of fuel). -/
inductive QueryError where
  | notAnActualIndividual
  | attributeFault
  | recursionLimit
deriving Repr, DecidableEq

/-- `Parser.get_families(individual, family_type)`: scan the individual's
direct children for links of the requested tag whose value is a key of the
pointer index; collect the indexed elements in source order. -/
def get_families (doc : List Element) (individual : Element) (familyType : String) :
    Except QueryError (List Element) :=
  if !isIndividual individual then .error .notAnActualIndividual
  else
    .ok (individual.get_child_elements.filterMap (fun ce =>
      if ce.get_tag = familyType then get_element_by_pointer doc ce.get_value
      else none))

/-- The inner scan of `Parser.get_marriages`: `date` and `place` start as
empty strings and are overwritten by every DATE / PLAC child of the
marriage event in turn. -/
def marriageData (familyData : Element) : String × String :=
  familyData.get_child_elements.foldl
    (fun dp md =>
      let d := if md.get_tag = GEDCOM_TAG_DATE then md.get_value else dp.1
      let p := if md.get_tag = GEDCOM_TAG_PLACE then md.get_value else dp.2
      (d, p))
    ("", "")

/-- `Parser.get_marriages(individual)`: one `(date, place)` pair per
marriage-event child of each spouse-family, in source order. -/
def get_marriages (doc : List Element) (individual : Element) :
    Except QueryError (List (String × String)) :=
  if !isIndividual individual then .error .notAnActualIndividual
  else
    match get_families doc individual GEDCOM_TAG_FAMILY_SPOUSE with
    | .error e => .error e
    | .ok families =>
      .ok (families.flatMap (fun family =>
        family.get_child_elements.filterMap (fun familyData =>
          if familyData.get_tag = GEDCOM_TAG_MARRIAGE then some (marriageData familyData)
          else none)))

/-- `Parser.get_parents(individual)`: the `(husband, wife)` pair; each slot
is `None` when the child-of-family link, the family record, or the
corresponding member pointer is missing. -/
def get_parents (doc : List Element) (individual : Element) :
    Except QueryError (Option Element × Option Element) :=
  if !isIndividual individual then .error .notAnActualIndividual
  else if !is_child_in_a_family individual then .ok (none, none)
  else
    match resolvePointer doc (get_parent_family_pointer individual) with
    | none => .ok (none, none)
    | some family =>
      if !isFamily family then .ok (none, none)
      else
        .ok ((if has_husband family then resolvePointer doc (get_husband_pointer family) else none),
             (if has_wife family then resolvePointer doc (get_wife_pointer family) else none))

/-- `Parser.get_ancestors(individual)`: `ancestors` starts as the raw
`(husband, wife)` pair — `None` entries included — and is extended with the
recursive expansion of each entry; the recursive call puts a `None` parent
through the `isinstance` check, which raises.  The argument is an
`Option Element` because Python passes the possibly-`None` slots back in;
`fuel` models the Python recursion limit. -/
def get_ancestors (doc : List Element) :
    Nat → Option Element → Except QueryError (List (Option Element))
  | 0, _ => .error .recursionLimit
  | _ + 1, none => .error .notAnActualIndividual
  | fuel + 1, some individual =>
    if !isIndividual individual then .error .notAnActualIndividual
    else
      match get_parents doc individual with
      | .error e => .error e
      | .ok (husband, wife) =>
        match get_ancestors doc fuel husband with
        | .error e => .error e
        | .ok husbandSide =>
          match get_ancestors doc fuel wife with
          | .error e => .error e
          | .ok wifeSide => .ok ([husband, wife] ++ husbandSide ++ wifeSide)

/-- `Parser.find_path_to_ancestor(descendant, ancestor, path)`: depth-first
search following `get_parents`, father branch first; the recursive call
feeds each parent slot — possibly `None` — back in as `descendant`, where a
`None` fails the `isinstance` check and raises.  `path=None` or an empty
path (both falsy) restart from `[descendant]`. -/
def find_path_to_ancestor (doc : List Element) :
    Nat → Option Element → Option Element → Option (List (Option Element)) →
    Except QueryError (Option (List (Option Element)))
  | 0, _, _, _ => .error .recursionLimit
  | _ + 1, none, _, _ => .error .notAnActualIndividual
  | _ + 1, some _, none, _ => .error .notAnActualIndividual
  | fuel + 1, some descendant, some ancestor, path0 =>
    if !isIndividual descendant || !isIndividual ancestor then
      .error .notAnActualIndividual
    else
      let path : List (Option Element) :=
        match path0 with
        | none => [some descendant]
        | some [] => [some descendant]
        | some p => p
      match path.getLast? with
      | none => .error .attributeFault
      | some none => .error .attributeFault
      | some (some lastEl) =>
        if lastEl.get_pointer = ancestor.get_pointer then .ok (some path)
        else
          match get_parents doc descendant with
          | .error e => .error e
          | .ok (husband, wife) =>
            match find_path_to_ancestor doc fuel husband (some ancestor)
                    (some (path ++ [husband])) with
            | .error e => .error e
            | .ok (some found) => .ok (some found)
            | .ok none =>
              match find_path_to_ancestor doc fuel wife (some ancestor)
                      (some (path ++ [wife])) with
              | .error e => .error e
              | .ok (some found) => .ok (some found)
              | .ok none => .ok none

/-! ## A concrete document

A small parsed document used to evaluate the query layer at concrete
inputs: `I1` and `I2` are spouses in family `F1`, `I3` is their child, `F1`
carries one marriage event with two DATE children, and `I9` is an unrelated
individual. -/

def elI1 : Element :=
  .mk ⟨0, some "@I1@", "INDI", "", "\n"⟩ [.mk ⟨1, some "", "FAMS", "@F1@", "\n"⟩ []]

def elI2 : Element :=
  .mk ⟨0, some "@I2@", "INDI", "", "\n"⟩ [.mk ⟨1, some "", "FAMS", "@F1@", "\n"⟩ []]

def elF1 : Element :=
  .mk ⟨0, some "@F1@", "FAM", "", "\n"⟩
    [.mk ⟨1, some "", "HUSB", "@I1@", "\n"⟩ [],
     .mk ⟨1, some "", "WIFE", "@I2@", "\n"⟩ [],
     .mk ⟨1, some "", "CHIL", "@I3@", "\n"⟩ [],
     .mk ⟨1, some "", "MARR", "", "\n"⟩
       [.mk ⟨2, some "", "DATE", "A", "\n"⟩ [],
        .mk ⟨2, some "", "DATE", "B", "\n"⟩ []]]

def elI3 : Element :=
  .mk ⟨0, some "@I3@", "INDI", "", "\n"⟩ [.mk ⟨1, some "", "FAMC", "@F1@", "\n"⟩ []]

def elI9 : Element :=
  .mk ⟨0, some "@I9@", "INDI", "", "\n"⟩ []

def docMain : List Element := [elI1, elI2, elF1, elI3, elI9]

/-- A build state in the middle of a parse: the last element is at level 1
(a NAME line under an INDI record). -/
def spineW : List BuildFrame :=
  [⟨⟨1, some "", "NAME", "John", "\n"⟩, []⟩,
   ⟨⟨0, some "@I1@", "INDI", "", "\n"⟩, []⟩,
   ⟨rootData, []⟩]

/-! ## Claims -/

/-- C1: in both strict and lenient mode, whenever the fields extracted from
a line (through the primary grammar or any quirk recovery) carry a level
exceeding the previous element's level by more than one, `parse_line`
raises a `GedcomFormatViolationError` carrying the line number; the check
sits after the field extraction and applies to every branch of it. -/
theorem levelJump_always_raises (lineNumber : Nat) (line : Chars)
    (spine : List BuildFrame) (strict : Bool) (d : ElemData)
    (hparts : parseLineParts lineNumber line (headData spine) strict = .ok d)
    (hjump : d.level > (headData spine).level + 1) :
    parse_line lineNumber line spine strict = .error (.levelViolation lineNumber) := by
  unfold parse_line
  rw [hparts]
  simp [hjump]

/-- Witness for C1: a jump from level 1 directly to level 3. -/
theorem levelJump_always_raises_witness :
    parseLineParts 7 "3 NOTE x\n".data (headData spineW) true =
      .ok ⟨3, some "", "NOTE", "x", "\n"⟩ ∧
    ((3 : Int) > (headData spineW).level + 1) ∧
    parse_line 7 "3 NOTE x\n".data spineW true = .error (.levelViolation 7) :=
  ⟨rfl, by decide,
   levelJump_always_raises 7 "3 NOTE x\n".data spineW true
     ⟨3, some "", "NOTE", "x", "\n"⟩ rfl (by decide)⟩

/-- C2: the claim fails on the code — `get_ancestors` extends the ancestor
list with the raw `(husband, wife)` pair and then recurses into each entry,
including `None` ones, and the recursive call's `isinstance` check raises
`NotAnActualIndividualError` on `None`.  At the failing input `I3` — whose
parents resolve to the present father `I1` and present mother `I2`, both
themselves parentless — the code raises instead of returning
`[F] + ancestors(F) + [M] + ancestors(M)` (`= [I1, I2]`). -/
theorem getAncestors_raises_with_both_parents_present :
    get_parents docMain elI3 = .ok (some elI1, some elI2) ∧
    get_ancestors docMain 10 (some elI3) = .error .notAnActualIndividual :=
  ⟨rfl, rfl⟩

/-- C7: the claim fails on the code — an absent parent slot does not
silently terminate the branch: `find_path_to_ancestor` recurses into the
`None` slot and the `isinstance` check raises `NotAnActualIndividualError`.
At the failing input, descendant `I1` has no child-of-family link (both
parent slots absent) and ancestor `I9` is unrelated, so the search should
return absent; instead it raises. -/
theorem findPath_raises_on_absent_parent :
    get_parents docMain elI1 = .ok (none, none) ∧
    find_path_to_ancestor docMain 10 (some elI1) (some elI9) none =
      .error .notAnActualIndividual :=
  ⟨rfl, rfl⟩

/-- Counterexample to C3 as stated: in a marriage event with two DATE
children `A` then `B`, the produced pair is `("B", "")` — the last DATE
child wins, not the first, so the claimed result `("A", "")` is wrong. -/
theorem getMarriages_first_wins_counterexample :
    get_marriages docMain elI1 = .ok [("B", "")] ∧
    (("B", "") : String × String) ≠ ("A", "") :=
  ⟨rfl, by decide⟩

/-- Counterexample to C6 as stated: for the line `0 NOTE x \n` the
remainder of the line after the tag is `" x "`; trimming a single leading
space would store `"x "`, but the code calls `str.strip()` and stores
`"x"` — the trailing space is removed. -/
theorem value_single_space_trim_counterexample :
    matchGedcomLine "0 NOTE x \n".data =
      some ⟨0, [], "NOTE".data, " x ".data, "\n".data⟩ ∧
    parseLineParts 1 "0 NOTE x \n".data rootData true =
      .ok ⟨0, some "", "NOTE", "x", "\n"⟩ ∧
    ("x" : String) ≠ "x " :=
  ⟨rfl, rfl, by decide⟩

/-- Counterexample to C8 as stated: after `parse("0 HEAD\n2 NOTE x",
strict=False)` fails with the level violation on line 2, the parser's root
element still exposes the HEAD record built from line 1 — the partial tree
is observable, contrary to the claim. -/
theorem partial_tree_exposed_counterexample :
    (parse "0 HEAD\n2 NOTE x".data false).1 = .error (.levelViolation 2) ∧
    (collapseSpine (parse "0 HEAD\n2 NOTE x".data false).2).map Element.get_tag =
      ["HEAD"] ∧
    (["HEAD"] : List String) ≠ [] :=
  ⟨rfl, rfl, by decide⟩

/-- The spec's description of the first slot of `parents(individual)`: the
husband-or-absent entry, computed without reference to the wife pointer —
absent when the child-of-family link, the family record, or the husband
pointer is missing. -/
def husbandSlot (doc : List Element) (individual : Element) : Option Element :=
  if !is_child_in_a_family individual then none
  else
    match resolvePointer doc (get_parent_family_pointer individual) with
    | none => none
    | some family =>
      if !isFamily family then none
      else if has_husband family then resolvePointer doc (get_husband_pointer family)
      else none

/-- The spec's description of the second slot of `parents(individual)`: the
wife-or-absent entry, computed without reference to the husband pointer. -/
def wifeSlot (doc : List Element) (individual : Element) : Option Element :=
  if !is_child_in_a_family individual then none
  else
    match resolvePointer doc (get_parent_family_pointer individual) with
    | none => none
    | some family =>
      if !isFamily family then none
      else if has_wife family then resolvePointer doc (get_wife_pointer family)
      else none

/-- C4: for every Individual-tagged element, `get_parents` returns the
fixed 2-slot pair (husband-or-absent, wife-or-absent) in that order, each
slot determined independently of the other; with no child-of-family link
both slots are absent. -/
theorem getParents_fixed_slots (doc : List Element) (individual : Element)
    (h : isIndividual individual = true) :
    get_parents doc individual =
      .ok (husbandSlot doc individual, wifeSlot doc individual) ∧
    (is_child_in_a_family individual = false →
      husbandSlot doc individual = none ∧ wifeSlot doc individual = none) := by
  constructor
  · unfold get_parents husbandSlot wifeSlot
    rw [h]
    cases hc : is_child_in_a_family individual with
    | false => simp
    | true =>
      simp only [Bool.not_true, Bool.false_eq_true, if_false]
      cases hr : resolvePointer doc (get_parent_family_pointer individual) with
      | none => simp
      | some family =>
        cases hf : isFamily family <;> simp [hf]
  · intro hc
    unfold husbandSlot wifeSlot
    simp [hc]

/-- Witness for C4: in the concrete document, `I3` resolves to the pair
`(I1, I2)` through the slots, and the parentless `I1` gets the absent
pair. -/
theorem getParents_fixed_slots_witness :
    isIndividual elI3 = true ∧
    (get_parents docMain elI3 = .ok (husbandSlot docMain elI3, wifeSlot docMain elI3) ∧
     (is_child_in_a_family elI3 = false →
       husbandSlot docMain elI3 = none ∧ wifeSlot docMain elI3 = none)) :=
  ⟨rfl, getParents_fixed_slots docMain elI3 rfl⟩

theorem getLastD_cons {α : Type} (a x : α) (l : List α) :
    ((a :: l).getLast?).getD x = (l.getLast?).getD a := by
  induction l generalizing a x with
  | nil => rfl
  | cons b m ih =>
    rw [List.getLast?_cons_cons, ih b x, ih b a]

/-- The value of the last child carrying tag `t`, or the empty string when
there is none — the rule the marriage scan actually implements. -/
def lastTagValue (t : String) (e : Element) : String :=
  (((e.get_child_elements.filter (fun c => c.get_tag == t)).map
      Element.get_value).getLast?).getD ""

theorem lastFilterD_cons (t : String) (c : Element) (l : List Element) (x : String) :
    ((((c :: l).filter (fun e => e.get_tag == t)).map Element.get_value).getLast?).getD x
    = (((l.filter (fun e => e.get_tag == t)).map Element.get_value).getLast?).getD
        (if c.get_tag = t then c.get_value else x) := by
  by_cases h : c.get_tag = t
  · rw [List.filter_cons, if_pos (by simp [h]), List.map_cons, getLastD_cons, if_pos h]
  · rw [List.filter_cons, if_neg (by simp [h]), if_neg h]

theorem marriage_foldl (l : List Element) (dp : String × String) :
    l.foldl
      (fun dp md =>
        let d := if md.get_tag = GEDCOM_TAG_DATE then md.get_value else dp.1
        let p := if md.get_tag = GEDCOM_TAG_PLACE then md.get_value else dp.2
        (d, p)) dp =
    ((((l.filter (fun c => c.get_tag == GEDCOM_TAG_DATE)).map
        Element.get_value).getLast?).getD dp.1,
     (((l.filter (fun c => c.get_tag == GEDCOM_TAG_PLACE)).map
        Element.get_value).getLast?).getD dp.2) := by
  induction l generalizing dp with
  | nil => simp
  | cons c l ih =>
    rw [List.foldl_cons, ih, lastFilterD_cons, lastFilterD_cons]

theorem marriageData_last (e : Element) :
    marriageData e =
      (lastTagValue GEDCOM_TAG_DATE e, lastTagValue GEDCOM_TAG_PLACE e) := by
  unfold marriageData lastTagValue
  rw [marriage_foldl]

/-- The amended spec-side description of `marriages(individual)`: one
`(date, place)` pair per marriage-event child of each spouse-family, where
the LAST element with the date tag determines the date and the LAST element
with the place tag determines the place; a missing date or place yields the
empty string, never an absent value. -/
def specMarriages (doc : List Element) (individual : Element) :
    List (String × String) :=
  match get_families doc individual GEDCOM_TAG_FAMILY_SPOUSE with
  | .error _ => []
  | .ok families =>
    families.flatMap (fun family =>
      family.get_child_elements.filterMap (fun familyData =>
        if familyData.get_tag = GEDCOM_TAG_MARRIAGE then
          some (lastTagValue GEDCOM_TAG_DATE familyData,
                lastTagValue GEDCOM_TAG_PLACE familyData)
        else none))

/-- C3 (amended): for every Individual-tagged element, `get_marriages`
returns one `(date, place)` pair per spouse-family marriage event, where
the last date-tagged child and the last place-tagged child win, and a
missing date or place yields the empty string. -/
theorem getMarriages_last_wins (doc : List Element) (individual : Element)
    (h : isIndividual individual = true) :
    get_marriages doc individual = .ok (specMarriages doc individual) := by
  unfold get_marriages specMarriages
  rw [h]
  cases hf : get_families doc individual GEDCOM_TAG_FAMILY_SPOUSE with
  | error e =>
    exfalso
    unfold get_families at hf
    rw [h] at hf
    simp at hf
  | ok families =>
    simp [marriageData_last]

/-- Witness for C3 (amended), at the concrete document: the single marriage
event of family `F1` yields its last DATE child's value. -/
theorem getMarriages_last_wins_witness :
    isIndividual elI1 = true ∧
    get_marriages docMain elI1 = .ok (specMarriages docMain elI1) ∧
    specMarriages docMain elI1 = [("B", "")] :=
  ⟨rfl, getMarriages_last_wins docMain elI1 rfl, rfl⟩

/-- C5: in lenient mode, a line of free text with a terminator (rejected by
the primary grammar and by the terminator-less quirk grammar) is
reinterpreted as a continuation: if the previous element's tag is the
continuation or concatenation tag, the produced element keeps that level
and tag and carries the line's (whitespace-stripped, as `str.strip()` does)
text as its value and becomes a sibling of the previous element; otherwise
the produced element sits one level deeper, tagged with the concatenation
tag, with the line's text as value, attached as a child of the previous
element (the returned spine pushes it directly on the previous element's
frame). -/
theorem quirk_free_text_continuation (n : Nat) (line txt cl : Chars)
    (f p : BuildFrame) (rest : List BuildFrame)
    (h1 : matchGedcomLine line = none)
    (h2 : matchLastLine line = none)
    (h3 : matchContLine line = some (txt, cl))
    (hp : p.data.level ≤ f.data.level - 1) :
    if f.data.tag ≠ GEDCOM_TAG_CONTINUED ∧ f.data.tag ≠ GEDCOM_TAG_CONCAT then
      parse_line n line (f :: p :: rest) false =
        .ok (⟨⟨f.data.level + 1, none, GEDCOM_TAG_CONCAT, pyStrip txt, cl.asString⟩, []⟩
              :: f :: p :: rest)
    else
      parse_line n line (f :: p :: rest) false =
        .ok (⟨⟨f.data.level, none, f.data.tag, pyStrip txt, cl.asString⟩, []⟩ ::
             ⟨p.data, p.children ++ [completeFrame f]⟩ :: rest) := by
  have hhd : headData (f :: p :: rest) = f.data := rfl
  by_cases hc : f.data.tag ≠ GEDCOM_TAG_CONTINUED ∧ f.data.tag ≠ GEDCOM_TAG_CONCAT
  · rw [if_pos hc]
    have hparts : parseLineParts n line f.data false =
        .ok ⟨f.data.level + 1, none, GEDCOM_TAG_CONCAT, pyStrip txt, cl.asString⟩ := by
      unfold parseLineParts
      rw [h1, h2, h3]
      simp only [Bool.false_eq_true, if_false]
      rw [if_pos hc]
    have hat : attach ⟨f.data.level + 1, none, GEDCOM_TAG_CONCAT, pyStrip txt, cl.asString⟩
        (f :: p :: rest) =
        some (⟨⟨f.data.level + 1, none, GEDCOM_TAG_CONCAT, pyStrip txt, cl.asString⟩, []⟩
              :: f :: p :: rest) := by
      simp only [attach]
      rw [if_neg (show ¬ (f.data.level > f.data.level + 1 - 1) by omega)]
    simp only [parse_line, hhd, hparts, hat]
    rw [if_neg (show ¬ (f.data.level + 1 > f.data.level + 1) by omega)]
  · rw [if_neg hc]
    have hparts : parseLineParts n line f.data false =
        .ok ⟨f.data.level, none, f.data.tag, pyStrip txt, cl.asString⟩ := by
      unfold parseLineParts
      rw [h1, h2, h3]
      simp only [Bool.false_eq_true, if_false]
      rw [if_neg hc]
    have hat : attach ⟨f.data.level, none, f.data.tag, pyStrip txt, cl.asString⟩
        (f :: p :: rest) =
        some (⟨⟨f.data.level, none, f.data.tag, pyStrip txt, cl.asString⟩, []⟩ ::
             ⟨p.data, p.children ++ [completeFrame f]⟩ :: rest) := by
      simp only [attach, attachUp]
      rw [if_pos (show f.data.level > f.data.level - 1 by omega),
          if_neg (show ¬ (p.data.level > f.data.level - 1) by omega)]
    simp only [parse_line, hhd, hparts, hat]
    rw [if_neg (show ¬ (f.data.level > f.data.level + 1) by omega)]

/-- A frame for a level-1 NOTE element, previous element of the C5
witness. -/
def frameNOTE : BuildFrame := ⟨⟨1, some "", "NOTE", "x", "\n"⟩, []⟩

/-- The root frame of a fresh build state. -/
def rootFrame : BuildFrame := ⟨rootData, []⟩

/-- Witness for C5: the free-text line `" extra\n"` after a NOTE element
becomes a level-2 CONC child of the NOTE element. -/
theorem quirk_free_text_continuation_witness :
    matchGedcomLine " extra\n".data = none ∧
    matchLastLine " extra\n".data = none ∧
    matchContLine " extra\n".data = some (" extra".data, "\n".data) ∧
    rootFrame.data.level ≤ frameNOTE.data.level - 1 ∧
    (if frameNOTE.data.tag ≠ GEDCOM_TAG_CONTINUED ∧ frameNOTE.data.tag ≠ GEDCOM_TAG_CONCAT then
      parse_line 2 " extra\n".data (frameNOTE :: rootFrame :: []) false =
        .ok (⟨⟨frameNOTE.data.level + 1, none, GEDCOM_TAG_CONCAT,
               pyStrip " extra".data, "\n".data.asString⟩, []⟩
              :: frameNOTE :: rootFrame :: [])
    else
      parse_line 2 " extra\n".data (frameNOTE :: rootFrame :: []) false =
        .ok (⟨⟨frameNOTE.data.level, none, frameNOTE.data.tag,
               pyStrip " extra".data, "\n".data.asString⟩, []⟩ ::
             ⟨rootFrame.data, rootFrame.children ++ [completeFrame frameNOTE]⟩ :: [])) :=
  ⟨by decide, by decide, rfl, by decide,
   quirk_free_text_continuation 2 " extra\n".data " extra".data "\n".data
     frameNOTE rootFrame [] (by decide) (by decide) rfl (by decide)⟩

theorem pyStripChars_decomp (s : Chars) :
    ∃ a b, s = a ++ pyStripChars s ++ b ∧
      (∀ c ∈ a, c.isWhitespace) ∧ (∀ c ∈ b, c.isWhitespace) := by
  refine ⟨s.takeWhile Char.isWhitespace,
    ((s.dropWhile Char.isWhitespace).reverse.takeWhile Char.isWhitespace).reverse,
    ?_, ?_, ?_⟩
  · have hd : s.dropWhile Char.isWhitespace =
        pyStripChars s ++
          ((s.dropWhile Char.isWhitespace).reverse.takeWhile Char.isWhitespace).reverse := by
      unfold pyStripChars
      conv_lhs => rw [← List.reverse_reverse (s.dropWhile Char.isWhitespace)]
      conv_lhs =>
        rw [← List.takeWhile_append_dropWhile Char.isWhitespace
              (s.dropWhile Char.isWhitespace).reverse]
      rw [List.reverse_append]
    conv_lhs => rw [← List.takeWhile_append_dropWhile Char.isWhitespace s, hd]
    rw [List.append_assoc]
  · intro c hc; exact List.mem_takeWhile_imp hc
  · intro c hc; exact List.mem_takeWhile_imp (List.mem_reverse.mp hc)

/-- C6 (amended): for every line matching the primary grammar, the value
stored on the produced element is the remainder of the line after the tag
with leading AND trailing whitespace stripped (Python `str.strip()`);
interior characters are preserved verbatim — the stored value is an
interior segment of the raw value group flanked only by whitespace. -/
theorem value_full_strip (n : Nat) (line : Chars) (last : ElemData)
    (strict : Bool) (flds : LineFields)
    (h : matchGedcomLine line = some flds) :
    parseLineParts n line last strict =
      .ok ⟨(flds.level : Int), some (rstripSpace flds.pointerGroup).asString,
           flds.tag.asString, pyStrip flds.valueGroup, flds.crlf.asString⟩ ∧
    ∃ a b, flds.valueGroup = a ++ pyStripChars flds.valueGroup ++ b ∧
      (∀ c ∈ a, c.isWhitespace) ∧ (∀ c ∈ b, c.isWhitespace) := by
  constructor
  · unfold parseLineParts
    rw [h]
  · exact pyStripChars_decomp flds.valueGroup

/-- Witness for C6 (amended), on the line `0 NOTE x \n` whose raw value
group is `" x "`. -/
theorem value_full_strip_witness :
    matchGedcomLine "0 NOTE x \n".data =
      some ⟨0, [], "NOTE".data, " x ".data, "\n".data⟩ ∧
    (parseLineParts 1 "0 NOTE x \n".data rootData true =
      .ok ⟨(0 : Int), some (rstripSpace []).asString, "NOTE".data.asString,
           pyStrip " x ".data, "\n".data.asString⟩ ∧
     ∃ a b, " x ".data = a ++ pyStripChars " x ".data ++ b ∧
       (∀ c ∈ a, c.isWhitespace) ∧ (∀ c ∈ b, c.isWhitespace)) :=
  ⟨rfl, value_full_strip 1 "0 NOTE x \n".data rootData true
    ⟨0, [], "NOTE".data, " x ".data, "\n".data⟩ rfl⟩

/-- C8 (amended): when a line fails, the parse aborts at that line — no
later line is consumed and the error of the offending line propagates —
but the parser's document state after the failure is exactly the state
built from the preceding lines: the partially built tree stays exposed
through the root element (the parse loop mutates the root in place and
does not roll back). -/
theorem parse_aborts_at_first_error (strict : Bool) (pre : List Chars)
    (bad : Chars) (rest : List Chars) (n : Nat) (s0 s1 : List BuildFrame)
    (e : ParseError)
    (h1 : parseLinesFrom strict n s0 pre = (.ok (), s1))
    (h2 : parse_line (n + pre.length) bad s1 strict = .error e) :
    parseLinesFrom strict n s0 (pre ++ bad :: rest) = (.error e, s1) := by
  induction pre generalizing n s0 with
  | nil =>
    have hs : s0 = s1 := by simpa [parseLinesFrom] using h1
    subst hs
    simp only [List.length_nil, Nat.add_zero] at h2
    simp only [List.nil_append, parseLinesFrom]
    rw [h2]
  | cons l ls ih =>
    simp only [List.cons_append, parseLinesFrom] at h1 ⊢
    cases hpl : parse_line n l s0 strict with
    | error e2 =>
      simp only [hpl] at h1
      simp at h1
    | ok s2 =>
      simp only [hpl] at h1 ⊢
      have h2b : parse_line (n + 1 + ls.length) bad s1 strict = .error e := by
        rw [Nat.succ_add]
        exact h2
      exact ih (n + 1) s2 h1 h2b

/-- Witness for C8 (amended): after a good HEAD line, a level jump on line
2 aborts the parse — the trailing TRLR line is never consumed — and the
state is the one line 1 built. -/
theorem parse_aborts_witness :
    parseLinesFrom true 1 initSpine ["0 HEAD\n".data] =
      (.ok (), (parseLinesFrom true 1 initSpine ["0 HEAD\n".data]).2) ∧
    parse_line 2 "2 NOTE y\n".data (parseLinesFrom true 1 initSpine ["0 HEAD\n".data]).2 true =
      .error (.levelViolation 2) ∧
    parseLinesFrom true 1 initSpine
        (["0 HEAD\n".data] ++ "2 NOTE y\n".data :: ["0 TRLR\n".data]) =
      (.error (.levelViolation 2), (parseLinesFrom true 1 initSpine ["0 HEAD\n".data]).2) :=
  ⟨rfl, rfl,
   parse_aborts_at_first_error true ["0 HEAD\n".data] "2 NOTE y\n".data ["0 TRLR\n".data]
     1 initSpine (parseLinesFrom true 1 initSpine ["0 HEAD\n".data]).2
     (.levelViolation 2) rfl rfl⟩

theorem matchLevel_sublist {line : Chars} {lvl : Nat} {r : Chars}
    (h : matchLevel line = some (lvl, r)) : r.Sublist line := by
  unfold matchLevel at h
  split at h
  · rename_i rest
    simp only [Option.some.injEq, Prod.mk.injEq] at h
    rw [← h.2]
    exact (List.sublist_cons_self ' ' rest).trans (List.sublist_cons_self '0' (' ' :: rest))
  · rename_i _ c rest _
    split at h
    · split at h
      · rename_i _ ds rest2 heq
        simp only [Option.some.injEq, Prod.mk.injEq] at h
        rw [List.span_eq_take_drop] at heq
        have hdw : List.dropWhile Char.isDigit rest = ' ' :: rest2 :=
          congrArg Prod.snd heq
        rw [← h.2]
        have h1 : rest2.Sublist (' ' :: rest2) := List.sublist_cons_self ' ' rest2
        rw [← hdw] at h1
        exact (h1.trans (List.dropWhile_sublist _)).trans (List.sublist_cons_self c rest)
      · exact absurd h (by simp)
    · exact absurd h (by simp)
  · exact absurd h (by simp)

theorem matchPointer_sublist (s : Chars) : (matchPointer s).2.Sublist s := by
  unfold matchPointer
  split
  · rename_i rest
    split
    · rename_i _ m mid rest2 heq
      rw [List.span_eq_take_drop] at heq
      have hdw : List.dropWhile (fun c => decide (c ≠ '@')) rest = '@' :: ' ' :: rest2 :=
        congrArg Prod.snd heq
      have h1 : rest2.Sublist ('@' :: ' ' :: rest2) :=
        (List.sublist_cons_self ' ' rest2).trans (List.sublist_cons_self '@' (' ' :: rest2))
      rw [← hdw] at h1
      exact (h1.trans (List.dropWhile_sublist _)).trans (List.sublist_cons_self '@' rest)
    · exact List.Sublist.refl _
  · exact List.Sublist.refl _

theorem matchTag_sublist {s tg r : Chars} (h : matchTag s = some (tg, r)) :
    r.Sublist s := by
  unfold matchTag at h
  split at h
  · exact absurd h (by simp)
  · rename_i _ tg2 rest _ heq
    simp only [Option.some.injEq, Prod.mk.injEq] at h
    rw [List.span_eq_take_drop] at heq
    have hdw : List.dropWhile isTagChar s = rest := congrArg Prod.snd heq
    rw [← h.2, ← hdw]
    exact List.dropWhile_sublist _

theorem matchValue_sublist (s : Chars) : (matchValue s).2.Sublist s := by
  unfold matchValue
  split
  · rename_i rest
    split
    rename_i v rest2 heq
    rw [List.span_eq_take_drop] at heq
    have hdw : List.dropWhile (fun c => !isTerminator c) rest = rest2 :=
      congrArg Prod.snd heq
    rw [← hdw]
    exact (List.dropWhile_sublist _).trans (List.sublist_cons_self ' ' rest)
  · exact List.Sublist.refl _

theorem matchCrlf_some {r cl rest : Chars} (h : matchCrlf r = some (cl, rest)) :
    ∃ c ∈ r, isTerminator c = true := by
  unfold matchCrlf at h
  split at h
  · rename_i c1 c2 rest2
    by_cases ht : isTerminator c1 = true
    · exact ⟨c1, by simp, ht⟩
    · rw [if_neg ht] at h
      exact absurd h (by simp)
  · rename_i c1
    by_cases ht : isTerminator c1 = true
    · exact ⟨c1, by simp, ht⟩
    · rw [if_neg ht] at h
      exact absurd h (by simp)
  · exact absurd h (by simp)

/-- A successful primary-grammar match needs a terminator character
somewhere in the line: every stage before the terminator stage only passes
a remainder of its input along. -/
theorem matchGedcomLine_some_terminator {line : Chars} {flds : LineFields}
    (h : matchGedcomLine line = some flds) : ∃ c ∈ line, isTerminator c = true := by
  unfold matchGedcomLine at h
  split at h
  · exact absurd h (by simp)
  · rename_i _ lvl r1 hlv
    split at h
    rename_i ptr r2 hpt
    split at h
    · exact absurd h (by simp)
    · rename_i _ tg r3 htg
      split at h
      rename_i vg r4 hvl
      split at h
      · exact absurd h (by simp)
      · rename_i _ cl r5 hcr
        obtain ⟨c, hc, ht⟩ := matchCrlf_some hcr
        refine ⟨c, ?_, ht⟩
        have hc4 : c ∈ (matchValue r3).2 := by rw [hvl]; exact hc
        have hc3 : c ∈ r3 := (matchValue_sublist r3).subset hc4
        have hc2 : c ∈ (matchPointer r1).2 := by
          rw [hpt]
          exact (matchTag_sublist htg).subset hc3
        have hc1 : c ∈ r1 := (matchPointer_sublist r1).subset hc2
        exact (matchLevel_sublist hlv).subset hc1

/-- A line without terminator characters cannot match the primary
grammar. -/
theorem matchGedcomLine_none {line : Chars}
    (h : ∀ c ∈ line, isTerminator c = false) : matchGedcomLine line = none := by
  cases hm : matchGedcomLine line with
  | none => rfl
  | some flds =>
    obtain ⟨c, hc, ht⟩ := matchGedcomLine_some_terminator hm
    rw [h c hc] at ht
    exact absurd ht (by simp)

theorem splitOnNl_ne_nil (l : Chars) : splitOnNl l ≠ [] := by
  cases l with
  | nil => simp [splitOnNl]
  | cons c rest =>
    unfold splitOnNl
    by_cases hc : c = '\n'
    · simp [hc]
    · rw [if_neg hc]
      split <;> simp

theorem splitOnNl_mem {l piece : Chars} (hp : piece ∈ splitOnNl l) :
    ∀ c ∈ piece, c ∈ l ∧ ¬ c = '\n' := by
  induction l generalizing piece with
  | nil =>
    simp [splitOnNl] at hp
    subst hp
    simp
  | cons a rest ih =>
    unfold splitOnNl at hp
    by_cases ha : a = '\n'
    · rw [if_pos ha] at hp
      rcases List.mem_cons.mp hp with h1 | h2
      · subst h1; simp
      · intro c hc
        obtain ⟨hmem, hnl⟩ := ih h2 c hc
        exact ⟨List.mem_cons_of_mem a hmem, hnl⟩
    · rw [if_neg ha] at hp
      split at hp
      · rcases List.mem_cons.mp hp with h1 | h2
        · subst h1
          intro c hc
          rcases List.mem_cons.mp hc with rfl | hcp
          · exact ⟨List.mem_cons_self _ _, ha⟩
          · exact absurd hcp (by simp)
        · exact absurd h2 (by simp)
      · rename_i p ps heq
        rcases List.mem_cons.mp hp with h1 | h2
        · subst h1
          intro c hc
          rcases List.mem_cons.mp hc with rfl | hcp
          · exact ⟨List.mem_cons_self _ _, ha⟩
          · have hpmem : p ∈ splitOnNl rest := by
              rw [heq]; exact List.mem_cons_self p ps
            obtain ⟨hmem, hnl⟩ := ih hpmem c hcp
            exact ⟨List.mem_cons_of_mem a hmem, hnl⟩
        · intro c hc
          have hpsmem : piece ∈ splitOnNl rest := by
            rw [heq]; exact List.mem_cons_of_mem p h2
          obtain ⟨hmem, hnl⟩ := ih hpsmem c hc
          exact ⟨List.mem_cons_of_mem a hmem, hnl⟩

theorem pyStripChars_mem {s : Chars} {c : Char} (h : c ∈ pyStripChars s) : c ∈ s := by
  unfold pyStripChars at h
  have h1 := List.mem_reverse.mp h
  have h2 := (List.dropWhile_sublist _).subset h1
  have h3 := List.mem_reverse.mp h2
  exact (List.dropWhile_sublist _).subset h3

/-- C10: for every input string without carriage returns — in particular
one whose lines end in a bare line feed — `parse(string, strict=True)`
raises `GedcomFormatViolationError` on line 1 even when every line conforms
to the GEDCOM 5.5 grammar: `parse` splits on the line feed, so the pieces
reach `parse_line` without the terminator the strict grammar requires. -/
theorem strict_parse_fails_without_cr (s : Chars) (h : '\r' ∉ s) :
    (parse s true).1 =
      .error (.formatViolation 1 (((splitOnNl (pyStripChars s)).headD []).asString)) := by
  unfold parse
  cases hsp : splitOnNl (pyStripChars s) with
  | nil => exact absurd hsp (splitOnNl_ne_nil _)
  | cons p ps =>
    have hnoterm : ∀ c ∈ p, isTerminator c = false := by
      intro c hc
      have hmem : p ∈ splitOnNl (pyStripChars s) := by
        rw [hsp]; exact List.mem_cons_self p ps
      obtain ⟨hcs, hnl⟩ := splitOnNl_mem hmem c hc
      have hcr : ¬ c = '\r' := fun hr => h (hr ▸ pyStripChars_mem hcs)
      unfold isTerminator
      simp [hcr, hnl]
    have hparts : parseLineParts 1 p (headData initSpine) true =
        .error (.formatViolation 1 p.asString) := by
      unfold parseLineParts
      rw [matchGedcomLine_none hnoterm]
      simp
    have hpl : parse_line 1 p initSpine true = .error (.formatViolation 1 p.asString) := by
      unfold parse_line
      rw [hparts]
    simp only [parseLinesFrom, hpl]
    simp

/-- Witness for C10: a two-line GEDCOM document with bare line feeds whose
lines are individually well-formed. -/
theorem strict_parse_fails_without_cr_witness :
    '\r' ∉ "0 HEAD\n1 SOUR test".data ∧
    (parse "0 HEAD\n1 SOUR test".data true).1 =
      .error (.formatViolation 1
        (((splitOnNl (pyStripChars "0 HEAD\n1 SOUR test".data)).headD []).asString)) :=
  ⟨by decide, strict_parse_fails_without_cr "0 HEAD\n1 SOUR test".data (by decide)⟩

/-! ## The level invariant of the produced tree (C9) -/

mutual
/-- Well-formedness of a subtree hanging under a parent of level `pl`:
the node's level is `pl + 1` and its children are well-formed under it. -/
def wfLevel (pl : Int) : Element → Bool
  | .mk d cs => (d.level == pl + 1) && wfLevelList d.level cs
/-- Well-formedness of a list of subtrees under a parent of level `pl`. -/
def wfLevelList (pl : Int) : List Element → Bool
  | [] => true
  | c :: cs => wfLevel pl c && wfLevelList pl cs
end

theorem wfLevelList_iff (pl : Int) (cs : List Element) :
    wfLevelList pl cs = true ↔ ∀ c ∈ cs, wfLevel pl c = true := by
  induction cs with
  | nil => simp [wfLevelList]
  | cons c cs ih => simp [wfLevelList, ih]

/-- The levels along the spine descend in steps of exactly one down to the
root frame at level -1 (whose sentinel tag is not a continuation tag). -/
def spineLevels : List BuildFrame → Prop
  | [] => False
  | [f] => f.data.level = -1 ∧ f.data.tag = "ROOT"
  | f :: g :: rest => f.data.level = g.data.level + 1 ∧ spineLevels (g :: rest)

/-- Every completed child recorded in a spine frame is well-formed with
respect to that frame's level. -/
def framesOK (s : List BuildFrame) : Prop :=
  ∀ f ∈ s, ∀ c ∈ f.children, wfLevel f.data.level c = true

def spineInv (s : List BuildFrame) : Prop := spineLevels s ∧ framesOK s

theorem spineInv_init : spineInv initSpine := by
  constructor
  · exact ⟨rfl, rfl⟩
  · intro f hf c hc
    rcases List.mem_cons.mp hf with rfl | h2
    · exact absurd hc (by simp)
    · exact absurd h2 (by simp)

theorem spineLevels_ge : ∀ {s : List BuildFrame}, spineLevels s →
    ∀ f ∈ s, -1 ≤ f.data.level := by
  intro s
  induction s with
  | nil => intro h; exact absurd h (by simp [spineLevels])
  | cons f rest ih =>
    intro h g hg
    cases rest with
    | nil =>
      have h2 : f.data.level = -1 ∧ f.data.tag = "ROOT" := h
      rcases List.mem_cons.mp hg with rfl | h3
      · omega
      · exact absurd h3 (by simp)
    | cons q rest2 =>
      have h2 : f.data.level = q.data.level + 1 ∧ spineLevels (q :: rest2) := h
      have hq : -1 ≤ q.data.level := ih h2.2 q (List.mem_cons_self _ _)
      rcases List.mem_cons.mp hg with rfl | h3
      · omega
      · exact ih h2.2 g h3

theorem spineLevels_data {p : BuildFrame} {X : List Element}
    {rest : List BuildFrame} (h : spineLevels (p :: rest)) :
    spineLevels (⟨p.data, X⟩ :: rest) := by
  cases rest with
  | nil => exact h
  | cons q rest2 => exact h

theorem parseLineParts_level_nonneg {n : Nat} {line : Chars} {strict : Bool}
    {d : ElemData} {s : List BuildFrame}
    (hs : spineLevels s)
    (h : parseLineParts n line (headData s) strict = .ok d) : 0 ≤ d.level := by
  unfold parseLineParts at h
  split at h
  · rename_i f _
    simp only [Except.ok.injEq] at h
    rw [← h]
    exact Int.natCast_nonneg f.level
  · split at h
    · exact absurd h (by simp)
    · split at h
      · rename_i f _
        simp only [Except.ok.injEq] at h
        rw [← h]
        exact Int.natCast_nonneg f.level
      · split at h
        · exact absurd h (by simp)
        · cases s with
          | nil => exact absurd hs (by simp [spineLevels])
          | cons f rest =>
            have hhd : headData (f :: rest) = f.data := rfl
            rw [hhd] at h
            split at h
            · -- increment branch: level = f.data.level + 1
              simp only [Except.ok.injEq] at h
              rw [← h]
              have hf : -1 ≤ f.data.level :=
                spineLevels_ge hs f (List.mem_cons_self _ _)
              show 0 ≤ f.data.level + 1
              omega
            · -- keep branch: the previous tag is CONT or CONC, so the
              -- previous element is not the root
              rename_i hcond
              simp only [Except.ok.injEq] at h
              rw [← h]
              show 0 ≤ f.data.level
              cases rest with
              | nil =>
                have h2 : f.data.level = -1 ∧ f.data.tag = "ROOT" := hs
                rw [h2.2] at hcond
                exact absurd
                  (by decide :
                    ("ROOT" ≠ GEDCOM_TAG_CONTINUED ∧ "ROOT" ≠ GEDCOM_TAG_CONCAT))
                  hcond
              | cons q rest2 =>
                have h2 : f.data.level = q.data.level + 1 ∧ spineLevels (q :: rest2) := hs
                have hq : -1 ≤ q.data.level :=
                  spineLevels_ge h2.2 q (List.mem_cons_self _ _)
                omega

theorem attachUp_inv {d : ElemData} (h0 : 0 ≤ d.level) :
    ∀ (s : List BuildFrame) (c : Element),
      spineInv s →
      wfLevel (headData s).level c = true →
      d.level ≤ (headData s).level + 1 →
      ∃ tail, attachUp d c s = some (⟨d, []⟩ :: tail) ∧ spineInv (⟨d, []⟩ :: tail) := by
  intro s
  induction s with
  | nil => intro c hinv _ _; exact absurd hinv.1 (by simp [spineLevels])
  | cons p rest ih =>
    intro c hinv hwc hdle
    have hhd : headData (p :: rest) = p.data := rfl
    rw [hhd] at hwc hdle
    unfold attachUp
    by_cases hpop : p.data.level > d.level - 1
    · rw [if_pos hpop]
      cases rest with
      | nil =>
        have hr : p.data.level = -1 ∧ p.data.tag = "ROOT" := hinv.1
        omega
      | cons q rest2 =>
        have hlv : p.data.level = q.data.level + 1 ∧ spineLevels (q :: rest2) := hinv.1
        have hinv2 : spineInv (q :: rest2) :=
          ⟨hlv.2, fun g hg => hinv.2 g (List.mem_cons_of_mem p hg)⟩
        have hwc2 : wfLevel (headData (q :: rest2)).level
            (completeFrame ⟨p.data, p.children ++ [c]⟩) = true := by
          show wfLevel q.data.level (Element.mk p.data (p.children ++ [c])) = true
          unfold wfLevel
          rw [Bool.and_eq_true]
          constructor
          · simp [hlv.1]
          · rw [wfLevelList_iff]
            intro e he
            rcases List.mem_append.mp he with h1 | h2
            · exact hinv.2 p (List.mem_cons_self _ _) e h1
            · rw [List.mem_singleton.mp h2]
              exact hwc
        exact ih _ hinv2 hwc2 (by
          show d.level ≤ (headData (q :: rest2)).level + 1
          have hq : headData (q :: rest2) = q.data := rfl
          rw [hq]
          omega)
    · rw [if_neg hpop]
      refine ⟨⟨p.data, p.children ++ [c]⟩ :: rest, rfl, ?_, ?_⟩
      · show spineLevels (⟨d, []⟩ :: ⟨p.data, p.children ++ [c]⟩ :: rest)
        exact ⟨show d.level = p.data.level + 1 by omega, spineLevels_data hinv.1⟩
      · intro f hf e he
        rcases List.mem_cons.mp hf with rfl | hf2
        · exact absurd he (by simp)
        · rcases List.mem_cons.mp hf2 with rfl | hf3
          · rcases List.mem_append.mp he with h1 | h2
            · exact hinv.2 p (List.mem_cons_self _ _) e h1
            · rw [List.mem_singleton.mp h2]
              exact hwc
          · exact hinv.2 f (List.mem_cons_of_mem p hf3) e he

theorem attach_inv {d : ElemData} {s : List BuildFrame}
    (hinv : spineInv s) (h0 : 0 ≤ d.level)
    (hle : d.level ≤ (headData s).level + 1) :
    ∃ tail, attach d s = some (⟨d, []⟩ :: tail) ∧ spineInv (⟨d, []⟩ :: tail) := by
  cases s with
  | nil => exact absurd hinv.1 (by simp [spineLevels])
  | cons f rest =>
    have hhd : headData (f :: rest) = f.data := rfl
    rw [hhd] at hle
    simp only [attach]
    by_cases hpop : f.data.level > d.level - 1
    · rw [if_pos hpop]
      cases rest with
      | nil =>
        have hr : f.data.level = -1 ∧ f.data.tag = "ROOT" := hinv.1
        omega
      | cons q rest2 =>
        have hlv : f.data.level = q.data.level + 1 ∧ spineLevels (q :: rest2) := hinv.1
        have hinv2 : spineInv (q :: rest2) :=
          ⟨hlv.2, fun g hg => hinv.2 g (List.mem_cons_of_mem f hg)⟩
        have hwc : wfLevel (headData (q :: rest2)).level (completeFrame f) = true := by
          show wfLevel q.data.level (Element.mk f.data f.children) = true
          unfold wfLevel
          rw [Bool.and_eq_true]
          constructor
          · simp [hlv.1]
          · rw [wfLevelList_iff]
            exact fun e he => hinv.2 f (List.mem_cons_self _ _) e he
        exact attachUp_inv h0 (q :: rest2) (completeFrame f) hinv2 hwc (by
          show d.level ≤ (headData (q :: rest2)).level + 1
          have hq : headData (q :: rest2) = q.data := rfl
          rw [hq]
          omega)
    · rw [if_neg hpop]
      refine ⟨f :: rest, rfl, ?_, ?_⟩
      · show spineLevels (⟨d, []⟩ :: f :: rest)
        exact ⟨show d.level = f.data.level + 1 by omega, hinv.1⟩
      · intro g hg e he
        rcases List.mem_cons.mp hg with rfl | hg2
        · exact absurd he (by simp)
        · exact hinv.2 g hg2 e he

theorem parse_line_inv {n : Nat} {line : Chars} {strict : Bool}
    {s s2 : List BuildFrame}
    (hinv : spineInv s) (h : parse_line n line s strict = .ok s2) :
    spineInv s2 := by
  unfold parse_line at h
  split at h
  · exact absurd h (by simp)
  · rename_i d hparts
    split at h
    · exact absurd h (by simp)
    · rename_i hjump
      have h0 : 0 ≤ d.level := parseLineParts_level_nonneg hinv.1 hparts
      have hle : d.level ≤ (headData s).level + 1 := by omega
      obtain ⟨tail, hat, hinv2⟩ := attach_inv hinv h0 hle
      rw [hat] at h
      simp only [Except.ok.injEq] at h
      rw [← h]
      exact hinv2

theorem parseLinesFrom_inv {strict : Bool} :
    ∀ (lines : List Chars) (n : Nat) (s : List BuildFrame),
      spineInv s → spineInv (parseLinesFrom strict n s lines).2 := by
  intro lines
  induction lines with
  | nil => intro n s hinv; exact hinv
  | cons l ls ih =>
    intro n s hinv
    unfold parseLinesFrom
    cases hpl : parse_line n l s strict with
    | error e => exact hinv
    | ok s2 => exact ih (n + 1) s2 (parse_line_inv hinv hpl)

theorem collapseGo_wf : ∀ (rest : List BuildFrame) (f : BuildFrame),
    spineInv (f :: rest) → ∀ e ∈ collapseGo f rest, wfLevel (-1) e = true := by
  intro rest
  induction rest with
  | nil =>
    intro f hinv e he
    have hl : f.data.level = -1 ∧ f.data.tag = "ROOT" := hinv.1
    have := hinv.2 f (List.mem_cons_self _ _) e he
    rw [hl.1] at this
    exact this
  | cons p rest2 ih =>
    intro f hinv e he
    have hpop : spineInv (⟨p.data, p.children ++ [completeFrame f]⟩ :: rest2) := by
      have hlv : f.data.level = p.data.level + 1 ∧ spineLevels (p :: rest2) := hinv.1
      constructor
      · exact spineLevels_data hlv.2
      · intro g hg c hc
        rcases List.mem_cons.mp hg with rfl | hg2
        · rcases List.mem_append.mp hc with h1 | h2
          · exact hinv.2 p (List.mem_cons_of_mem f (List.mem_cons_self _ _)) c h1
          · rw [List.mem_singleton.mp h2]
            show wfLevel p.data.level (Element.mk f.data f.children) = true
            unfold wfLevel
            rw [Bool.and_eq_true]
            constructor
            · simp [hlv.1]
            · rw [wfLevelList_iff]
              exact fun c2 hc2 => hinv.2 f (List.mem_cons_self _ _) c2 hc2
        · exact hinv.2 g (List.mem_cons_of_mem f (List.mem_cons_of_mem p hg2)) c hc
    exact ih _ hpop e he

/-- C9: every tree produced by a successful parse satisfies the structural
invariant — the virtual root has logical level -1, and along every
parent-child edge the child's level is the parent's level plus one (so
top-level records are at level 0); the attach walk preserves this for every
accepted line. -/
theorem parse_tree_levels_wellformed (lines : List Chars) (strict : Bool)
    (h : (parseLinesFrom strict 1 initSpine lines).1 = .ok ()) :
    rootData.level = -1 ∧
    ∀ e ∈ collapseSpine (parseLinesFrom strict 1 initSpine lines).2,
      wfLevel (-1) e = true := by
  refine ⟨rfl, ?_⟩
  have hinv : spineInv (parseLinesFrom strict 1 initSpine lines).2 :=
    parseLinesFrom_inv lines 1 initSpine spineInv_init
  cases hsp : (parseLinesFrom strict 1 initSpine lines).2 with
  | nil =>
    rw [hsp] at hinv
    exact absurd hinv.1 (by simp [spineLevels])
  | cons f rest =>
    rw [hsp] at hinv
    intro e he
    exact collapseGo_wf rest f hinv e he

/-- Witness for C9: a five-line document parses successfully and its tree
passes the recursive level check from the root down. -/
theorem parse_tree_levels_wellformed_witness :
    (parseLinesFrom true 1 initSpine
      ["0 @I1@ INDI\n".data, "1 NAME John\n".data, "2 GIVN J\n".data,
       "1 SEX M\n".data, "0 TRLR\n".data]).1 = .ok () ∧
    (rootData.level = -1 ∧
     ∀ e ∈ collapseSpine (parseLinesFrom true 1 initSpine
        ["0 @I1@ INDI\n".data, "1 NAME John\n".data, "2 GIVN J\n".data,
         "1 SEX M\n".data, "0 TRLR\n".data]).2,
       wfLevel (-1) e = true) :=
  ⟨rfl, parse_tree_levels_wellformed
    ["0 @I1@ INDI\n".data, "1 NAME John\n".data, "2 GIVN J\n".data,
     "1 SEX M\n".data, "0 TRLR\n".data] true rfl⟩

end Gedcom
